import Mathlib

/-!
Verification of the `circbuf` crate (`src/lib.rs`): a fixed-capacity circular
buffer `CircBuf<T, SIZE>` with `push`, `pop`, `len`, `is_empty`, `is_full`,
`Index`/`IndexMut` access and a borrowing iterator `Iter`.

The Rust code is embedded shallowly.  The backing array `[MaybeUninit<T>; SIZE]`
is modelled as a function `Nat → Option T`: a cell holds `some v` once it was
written with `v`, and `none` while it is uninitialized; only indices below
`SIZE` are meaningful.  Operations that can panic (remainder by zero for
`SIZE = 0`, out-of-bounds array access) or hit undefined behaviour (reading an
uninitialized cell) return `Option`, with `none` for the fault.
-/

set_option autoImplicit false

namespace Circbuf

/-- The `CircBuf<T, SIZE>` struct: `start` is the start of the valid data,
`len` the number of valid elements after `start`, `data` the backing array. -/
structure CircBuf (T : Type) (SIZE : Nat) where
  start : Nat
  len : Nat
  data : Nat → Option T

namespace CircBuf

variable {T : Type} {SIZE : Nat}

/-- Rust `CircBuf::new`: `start = 0`, `len = 0`, every cell uninitialized. -/
def new (T : Type) (SIZE : Nat) : CircBuf T SIZE :=
  { start := 0, len := 0, data := fun _ => none }

/-- Rust `CircBuf::is_empty`: `self.len == 0`. -/
def is_empty (b : CircBuf T SIZE) : Bool := b.len == 0

/-- Rust `CircBuf::is_full`: `self.len == SIZE`. -/
def is_full (b : CircBuf T SIZE) : Bool := b.len == SIZE

/-- Rust `CircBuf::push`.  The Rust code first computes
`write_idx = (self.start + self.len) % SIZE` — a remainder by zero, hence a
panic, when `SIZE = 0` (modelled as `none`).  Otherwise `write_idx < SIZE`, the
array store succeeds, and then either `start` advances by one mod `SIZE`
(buffer full) or `len` grows by one. -/
def push (b : CircBuf T SIZE) (elem : T) : Option (CircBuf T SIZE) :=
  if SIZE = 0 then none
  else
    let write_idx := (b.start + b.len) % SIZE
    let data := fun j => if j = write_idx then some elem else b.data j
    if b.is_full then
      some { start := (b.start + 1) % SIZE, len := b.len, data := data }
    else
      some { start := b.start, len := b.len + 1, data := data }

/-- Rust `CircBuf::pop`.  `some (none, b)` is the defined empty result with the
state untouched; `some (some v, b2)` is a successful removal (the cell's
memory stays as it was, only `start` and `len` change).  The outer `none`
models a fault: `self.data[self.start]` out of bounds, or reading an
uninitialized cell (undefined behaviour). -/
def pop (b : CircBuf T SIZE) : Option (Option T × CircBuf T SIZE) :=
  if b.is_empty then
    some (none, b)
  else if b.start < SIZE then
    match b.data b.start with
    | none => none
    | some elem =>
        some (some elem,
          { start := (b.start + 1) % SIZE, len := b.len - 1, data := b.data })
  else none

/-- Read through `Index::index` (`&buf[i]`).  `none` models the explicit
out-of-bounds panic for `i >= self.len()`, plus the faults on a broken state
(`% 0` panic, array bound, uninitialized read). -/
def index (b : CircBuf T SIZE) (i : Nat) : Option T :=
  if b.len ≤ i then none
  else if (b.start + i) % SIZE < SIZE then b.data ((b.start + i) % SIZE)
  else none

/-- Write `v` through `IndexMut::index_mut` (`buf[i] = v`).  Same bound check
and physical-cell computation as `index`; the store replaces the cell's
content. -/
def index_mut_set (b : CircBuf T SIZE) (i : Nat) (v : T) :
    Option (CircBuf T SIZE) :=
  if b.len ≤ i then none
  else if (b.start + i) % SIZE < SIZE then
    some { b with
      data := fun j => if j = (b.start + i) % SIZE then some v else b.data j }
  else none

/-- The logical contents of the buffer: the cells at `(start + i) % SIZE` for
`i < len`, oldest first.  Specification-level view used to state theorems. -/
def toList (b : CircBuf T SIZE) : List (Option T) :=
  (List.range b.len).map (fun i => b.data ((b.start + i) % SIZE))

/-- The state invariant: `len ≤ SIZE`, `start` in range when `SIZE > 0`, and
every live cell `(start + i) % SIZE` for `i < len` holds a value. -/
def WF (b : CircBuf T SIZE) : Prop :=
  b.len ≤ SIZE ∧ (0 < SIZE → b.start < SIZE) ∧
    ∀ i, i < b.len → (b.data ((b.start + i) % SIZE)).isSome = true

instance (b : CircBuf T SIZE) : Decidable b.WF := by
  unfold WF; infer_instance

/-- Push a whole list, left to right, propagating a fault. -/
def pushAll (b : CircBuf T SIZE) (vs : List T) : Option (CircBuf T SIZE) :=
  vs.foldl (fun ob v => ob.bind (fun c => c.push v)) (some b)

/-- Pop `k` times, collecting the (optional) results in order. -/
def popN : CircBuf T SIZE → Nat → Option (List (Option T) × CircBuf T SIZE)
  | b, 0 => some ([], b)
  | b, k + 1 =>
    match b.pop with
    | none => none
    | some (v, b2) => (popN b2 k).map (fun r => (v :: r.1, r.2))

end CircBuf

/-- The `Iter` struct: a borrowed view of the buffer plus the index of the
next value to return. -/
structure Iter (T : Type) (SIZE : Nat) where
  buf : CircBuf T SIZE
  idx : Nat

/-- Rust `CircBuf::iter`: `Iter { buf: self, idx: 0 }`. -/
def CircBuf.iter {T : Type} {SIZE : Nat} (b : CircBuf T SIZE) : Iter T SIZE :=
  { buf := b, idx := 0 }

namespace Iter

variable {T : Type} {SIZE : Nat}

/-- Rust `Iter::next`.  `some (none, it)` is iterator exhaustion
(`idx >= buf.len()`); `some (some v, it2)` yields `&buf[idx]` and advances
the cursor; the outer `none` propagates a fault from the indexing call. -/
def next (it : Iter T SIZE) : Option (Option T × Iter T SIZE) :=
  if it.idx < it.buf.len then
    match it.buf.index it.idx with
    | none => none
    | some elem => some (some elem, { buf := it.buf, idx := it.idx + 1 })
  else
    some (none, it)

/-- Rust `Iterator::size_hint` for `Iter`:
`(self.buf.len(), Some(self.buf.len()))`. -/
def size_hint (it : Iter T SIZE) : Nat × Option Nat :=
  (it.buf.len, some it.buf.len)

/-- Drive the iterator: call `next` up to `fuel` times, collecting the yielded
values until exhaustion.  `none` propagates a fault. -/
def collect : Nat → Iter T SIZE → Option (List T)
  | 0, _ => some []
  | fuel + 1, it =>
    match it.next with
    | none => none
    | some (none, _) => some []
    | some (some v, it2) => (collect fuel it2).map (fun l => v :: l)

end Iter

/-- Buffer states reachable from the empty buffer by non-faulting `push`,
`pop`, and writes through `index_mut`. -/
inductive Reachable {T : Type} {SIZE : Nat} : CircBuf T SIZE → Prop
  | new : Reachable (CircBuf.new T SIZE)
  | push (b : CircBuf T SIZE) (e : T) (b2 : CircBuf T SIZE) :
      Reachable b → b.push e = some b2 → Reachable b2
  | pop (b : CircBuf T SIZE) (r : Option T) (b2 : CircBuf T SIZE) :
      Reachable b → b.pop = some (r, b2) → Reachable b2
  | set (b : CircBuf T SIZE) (i : Nat) (v : T) (b2 : CircBuf T SIZE) :
      Reachable b → b.index_mut_set i v = some b2 → Reachable b2

end Circbuf

namespace Circbuf

variable {T : Type} {SIZE : Nat}

/-- Distinct offsets below `SIZE` added to a common base give distinct cells
mod `SIZE`. -/
theorem mod_add_inj {s i j : Nat} (hi : i < SIZE) (hj : j < SIZE)
    (h : (s + i) % SIZE = (s + j) % SIZE) : i = j := by
  have h2 : i ≡ j [MOD SIZE] := Nat.ModEq.add_left_cancel' s h
  have h3 : i % SIZE = j % SIZE := h2
  rwa [Nat.mod_eq_of_lt hi, Nat.mod_eq_of_lt hj] at h3

/-- Peel the first index off a map over `List.range`. -/
theorem range_map_succ_shift {A : Type} (f : Nat → A) (m : Nat) :
    (List.range (m + 1)).map f = f 0 :: (List.range m).map (fun i => f (i + 1)) := by
  rw [List.range_succ_eq_map, List.map_cons, List.map_map]
  rfl

/-- Peel the last index off a map over `List.range`. -/
theorem range_map_last {A : Type} (f : Nat → A) (m : Nat) :
    (List.range (m + 1)).map f = (List.range m).map f ++ [f m] := by
  rw [List.range_succ, List.map_append]
  rfl

theorem CircBuf.toList_length (b : CircBuf T SIZE) : b.toList.length = b.len := by
  simp [CircBuf.toList]

theorem CircBuf.wf_new : (CircBuf.new T SIZE).WF :=
  ⟨Nat.zero_le _, fun h => h, fun i hi => by simp [CircBuf.new] at hi⟩

theorem CircBuf.toList_new : (CircBuf.new T SIZE).toList = [] := by
  simp [CircBuf.toList, CircBuf.new]

/-- Effect of `push` on a non-full buffer: the value is appended, `start`
stays, `len` grows by one, and the invariant is preserved. -/
theorem CircBuf.push_not_full {b : CircBuf T SIZE} (e : T) (hlt : b.len < SIZE) :
    ∃ b2, b.push e = some b2 ∧ b2.start = b.start ∧ b2.len = b.len + 1 ∧
      b2.data = (fun j => if j = (b.start + b.len) % SIZE then some e else b.data j) ∧
      b2.toList = b.toList ++ [some e] ∧ (b.WF → b2.WF) := by
  have hS : SIZE ≠ 0 := by omega
  have hnf : b.is_full = false := by
    simp only [CircBuf.is_full, beq_eq_false_iff_ne, ne_eq]
    omega
  refine ⟨⟨b.start, b.len + 1,
    fun j => if j = (b.start + b.len) % SIZE then some e else b.data j⟩,
    by simp [CircBuf.push, hS, hnf], rfl, rfl, rfl, ?_, ?_⟩
  · show (List.range (b.len + 1)).map
        (fun i => if (b.start + i) % SIZE = (b.start + b.len) % SIZE then some e
          else b.data ((b.start + i) % SIZE)) = b.toList ++ [some e]
    rw [range_map_last]
    congr 1
    · refine List.map_congr_left (fun i hi => ?_)
      rw [List.mem_range] at hi
      have hne : (b.start + i) % SIZE ≠ (b.start + b.len) % SIZE := fun hcon =>
        absurd (mod_add_inj (by omega) hlt hcon) (by omega)
      simp [CircBuf.toList, hne]
    · simp
  · rintro ⟨hlen, hstart, hlive⟩
    refine ⟨show b.len + 1 ≤ SIZE by omega, fun h => hstart h, fun i hi => ?_⟩
    show (if (b.start + i) % SIZE = (b.start + b.len) % SIZE then some e
      else b.data ((b.start + i) % SIZE)).isSome = true
    by_cases hcell : (b.start + i) % SIZE = (b.start + b.len) % SIZE
    · simp [hcell]
    · have hi2 : i < b.len := by
        have hi3 : i < b.len + 1 := hi
        rcases Nat.lt_succ_iff_lt_or_eq.mp hi3 with h | h
        · exact h
        · exact absurd (by rw [h]) hcell
      simp only [hcell, if_false]
      exact hlive i hi2

/-- Effect of `push` on a full buffer: the oldest element is dropped, the new
value is appended, `start` advances, `len` stays `SIZE`, and the invariant is
preserved. -/
theorem CircBuf.push_full {b : CircBuf T SIZE} (e : T) (hS : 0 < SIZE)
    (hfull : b.len = SIZE) :
    ∃ b2, b.push e = some b2 ∧ b2.start = (b.start + 1) % SIZE ∧ b2.len = SIZE ∧
      b2.toList = b.toList.tail ++ [some e] ∧ (b.WF → b2.WF) := by
  have hS0 : SIZE ≠ 0 := by omega
  have hf : b.is_full = true := by
    simp [CircBuf.is_full, hfull]
  refine ⟨⟨(b.start + 1) % SIZE, b.len,
    fun j => if j = (b.start + b.len) % SIZE then some e else b.data j⟩,
    by simp [CircBuf.push, hS0, hf], rfl, by simpa using hfull, ?_, ?_⟩
  · show (List.range b.len).map
        (fun i => if ((b.start + 1) % SIZE + i) % SIZE = (b.start + b.len) % SIZE
          then some e
          else b.data (((b.start + 1) % SIZE + i) % SIZE))
        = b.toList.tail ++ [some e]
    obtain ⟨n, hn⟩ : ∃ n, SIZE = n + 1 := ⟨SIZE - 1, by omega⟩
    have hlen : b.len = n + 1 := by omega
    have htail : b.toList.tail = (List.range n).map
        (fun i => b.data ((b.start + (i + 1)) % SIZE)) := by
      rw [CircBuf.toList, hlen, range_map_succ_shift, List.tail_cons]
    rw [htail]
    conv_lhs => rw [hlen, range_map_last]
    congr 1
    · refine List.map_congr_left (fun i hi => ?_)
      rw [List.mem_range] at hi
      have hcell : ((b.start + 1) % SIZE + i) % SIZE = (b.start + (i + 1)) % SIZE := by
        rw [Nat.mod_add_mod]
        congr 1
        omega
      have hw : (b.start + (n + 1)) % SIZE = (b.start + 0) % SIZE := by
        rw [← hn, Nat.add_mod_right, Nat.add_zero]
      have hne : (b.start + (i + 1)) % SIZE ≠ (b.start + (n + 1)) % SIZE := by
        rw [hw]
        intro hcon
        have := mod_add_inj (by omega) hS hcon
        omega
      simp only [hcell, hne, if_false]
    · have hcell : ((b.start + 1) % SIZE + n) % SIZE = (b.start + (n + 1)) % SIZE := by
        rw [Nat.mod_add_mod]
        congr 1
        omega
      simp [hcell]
  · rintro ⟨hlen, hstart, hlive⟩
    refine ⟨show b.len ≤ SIZE from hlen, fun h => Nat.mod_lt _ hS, fun i hi => ?_⟩
    show (if ((b.start + 1) % SIZE + i) % SIZE = (b.start + b.len) % SIZE then some e
      else b.data (((b.start + 1) % SIZE + i) % SIZE)).isSome = true
    by_cases hcell : ((b.start + 1) % SIZE + i) % SIZE = (b.start + b.len) % SIZE
    · simp [hcell]
    · simp only [hcell, if_false]
      have hcell2 : ((b.start + 1) % SIZE + i) % SIZE
          = (b.start + (1 + i) % SIZE) % SIZE := by
        rw [Nat.mod_add_mod, Nat.add_mod_mod]
        congr 1
        omega
      rw [hcell2]
      refine hlive ((1 + i) % SIZE) ?_
      rw [hfull]
      exact Nat.mod_lt _ hS

/-- Effect of `pop` on a non-empty buffer: it returns the value at cell
`start` (the head of the logical contents), advances `start`, decrements
`len`, leaves the storage untouched, and preserves the invariant. -/
theorem CircBuf.pop_nonempty {b : CircBuf T SIZE} (hWF : b.WF) (hpos : 0 < b.len) :
    ∃ v b2, b.pop = some (some v, b2) ∧ b.data b.start = some v ∧
      b.toList = some v :: b2.toList ∧
      b2.start = (b.start + 1) % SIZE ∧ b2.len = b.len - 1 ∧ b2.data = b.data ∧
      b2.WF := by
  obtain ⟨hlen, hstart, hlive⟩ := hWF
  have hS : 0 < SIZE := by omega
  have hst : b.start < SIZE := hstart hS
  have hcell0 : (b.start + 0) % SIZE = b.start := by
    rw [Nat.add_zero, Nat.mod_eq_of_lt hst]
  obtain ⟨v, hv⟩ : ∃ v, b.data b.start = some v := by
    have h0 := hlive 0 hpos
    rw [hcell0] at h0
    exact Option.isSome_iff_exists.mp h0
  have hne : b.is_empty = false := by
    simp only [CircBuf.is_empty, beq_eq_false_iff_ne, ne_eq]
    omega
  refine ⟨v, ⟨(b.start + 1) % SIZE, b.len - 1, b.data⟩,
    by simp [CircBuf.pop, hne, hst, hv], hv, ?_, rfl, rfl, rfl, ?_⟩
  · show b.toList = some v :: (List.range (b.len - 1)).map
      (fun i => b.data (((b.start + 1) % SIZE + i) % SIZE))
    obtain ⟨m, hm⟩ : ∃ m, b.len = m + 1 := ⟨b.len - 1, by omega⟩
    have hm2 : b.len - 1 = m := by omega
    rw [CircBuf.toList, hm, range_map_succ_shift, hcell0, hv, Nat.add_sub_cancel]
    refine congrArg (some v :: ·) (List.map_congr_left (fun i hi => ?_)).symm
    show b.data (((b.start + 1) % SIZE + i) % SIZE) = b.data ((b.start + (i + 1)) % SIZE)
    rw [Nat.mod_add_mod]
    have harg : b.start + 1 + i = b.start + (i + 1) := by omega
    rw [harg]
  · refine ⟨show b.len - 1 ≤ SIZE by omega, fun h => Nat.mod_lt _ hS, fun i hi => ?_⟩
    show (b.data (((b.start + 1) % SIZE + i) % SIZE)).isSome = true
    have hcell : ((b.start + 1) % SIZE + i) % SIZE = (b.start + (1 + i)) % SIZE := by
      rw [Nat.mod_add_mod]
      congr 1
      omega
    rw [hcell]
    refine hlive (1 + i) ?_
    have hi2 : i < b.len - 1 := hi
    omega


/-- In-range `index` under the invariant: it reads the physical cell
`(start + i) % SIZE` and always yields a value. -/
theorem CircBuf.index_in_range {b : CircBuf T SIZE} (hWF : b.WF) {i : Nat}
    (hi : i < b.len) :
    b.index i = b.data ((b.start + i) % SIZE) ∧ (b.index i).isSome = true := by
  obtain ⟨hlen, hstart, hlive⟩ := hWF
  have hS : 0 < SIZE := by omega
  have hmod : (b.start + i) % SIZE < SIZE := Nat.mod_lt _ hS
  have hni : ¬ b.len ≤ i := by omega
  constructor
  · simp [CircBuf.index, hni, hmod]
  · simp only [CircBuf.index, hni, if_false, hmod, if_true]
    exact hlive i hi

/-- Out-of-range `index` is the panic. -/
theorem CircBuf.index_out_of_range {b : CircBuf T SIZE} {i : Nat}
    (hi : b.len ≤ i) : b.index i = none := by
  simp [CircBuf.index, hi]

/-- Effect of an in-range write through `index_mut`: only the targeted
physical cell changes; `start` and `len` stay; the invariant is preserved. -/
theorem CircBuf.index_mut_set_in_range {b : CircBuf T SIZE} (hWF : b.WF) {i : Nat}
    (hi : i < b.len) (v : T) :
    ∃ b2, b.index_mut_set i v = some b2 ∧ b2.start = b.start ∧ b2.len = b.len ∧
      b2.data = (fun j => if j = (b.start + i) % SIZE then some v else b.data j) ∧
      b2.WF := by
  obtain ⟨hlen, hstart, hlive⟩ := hWF
  have hS : 0 < SIZE := by omega
  have hmod : (b.start + i) % SIZE < SIZE := Nat.mod_lt _ hS
  have hni : ¬ b.len ≤ i := by omega
  refine ⟨⟨b.start, b.len,
    fun j => if j = (b.start + i) % SIZE then some v else b.data j⟩,
    ?_, rfl, rfl, rfl, ?_⟩
  · simp only [CircBuf.index_mut_set, hni, if_false, hmod, if_true]
  · refine ⟨hlen, hstart, fun k hk => ?_⟩
    show (if (b.start + k) % SIZE = (b.start + i) % SIZE then some v
      else b.data ((b.start + k) % SIZE)).isSome = true
    by_cases hcell : (b.start + k) % SIZE = (b.start + i) % SIZE
    · simp [hcell]
    · simp only [hcell, if_false]
      exact hlive k hk

/-- Out-of-range writes through `index_mut` are the panic. -/
theorem CircBuf.index_mut_set_out_of_range {b : CircBuf T SIZE} {i : Nat}
    (hi : b.len ≤ i) (v : T) : b.index_mut_set i v = none := by
  simp [CircBuf.index_mut_set, hi]

/-- Driving the iterator with enough fuel collects exactly the values
`index idx, index (idx+1), ..., index (len-1)`. -/
theorem Iter.collect_spec {b : CircBuf T SIZE} (hWF : b.WF) :
    ∀ (fuel idx : Nat), b.len ≤ idx + fuel →
      ∃ l, Iter.collect fuel ⟨b, idx⟩ = some l ∧
        l.map some = (List.range (b.len - idx)).map (fun k => b.index (idx + k)) := by
  intro fuel
  induction fuel with
  | zero =>
    intro idx hle
    have h0 : b.len - idx = 0 := by omega
    exact ⟨[], rfl, by simp [h0]⟩
  | succ fuel ih =>
    intro idx hle
    by_cases hidx : idx < b.len
    · obtain ⟨hread, hsome⟩ := CircBuf.index_in_range hWF hidx
      obtain ⟨v, hv⟩ := Option.isSome_iff_exists.mp hsome
      obtain ⟨l, hl, hmap⟩ := ih (idx + 1) (by omega)
      have hnext : Iter.next ⟨b, idx⟩ = some (some v, ⟨b, idx + 1⟩) := by
        simp [Iter.next, hidx, hv]
      refine ⟨v :: l, ?_, ?_⟩
      · rw [Iter.collect, hnext]
        show Option.map (fun l2 => v :: l2) (Iter.collect fuel ⟨b, idx + 1⟩)
          = some (v :: l)
        rw [hl]
        rfl
      · obtain ⟨d, hd⟩ : ∃ d, b.len - idx = d + 1 := ⟨b.len - idx - 1, by omega⟩
        have hd2 : b.len - (idx + 1) = d := by omega
        rw [List.map_cons, hmap, hd2, hd, range_map_succ_shift]
        simp only [Nat.add_zero, hv]
        refine congrArg (some v :: ·) (List.map_congr_left (fun k hk => ?_))
        have harg : idx + 1 + k = idx + (k + 1) := by omega
        rw [harg]
    · have hnext : Iter.next ⟨b, idx⟩ = some (none, ⟨b, idx⟩) := by
        simp [Iter.next, hidx]
      have h0 : b.len - idx = 0 := by omega
      refine ⟨[], ?_, by simp [h0]⟩
      rw [Iter.collect, hnext]

/-- A `pushAll` starting from a `none` accumulator stays `none`. -/
theorem CircBuf.pushAll_none_aux (vs : List T) :
    (vs.foldl (fun ob v => ob.bind (fun c => c.push v)) (none : Option (CircBuf T SIZE)))
      = none := by
  induction vs with
  | nil => rfl
  | cons v vs ih => simpa [List.foldl_cons] using ih

theorem CircBuf.pushAll_cons (b : CircBuf T SIZE) (v : T) (vs : List T) :
    b.pushAll (v :: vs) = match b.push v with
      | none => none
      | some b1 => b1.pushAll vs := by
  cases hp : b.push v with
  | none =>
    show List.foldl (fun ob v => ob.bind (fun c => c.push v))
      ((some b).bind (fun c => c.push v)) vs = none
    rw [Option.some_bind, hp]
    exact CircBuf.pushAll_none_aux vs
  | some b1 =>
    show List.foldl (fun ob v => ob.bind (fun c => c.push v))
      ((some b).bind (fun c => c.push v)) vs = b1.pushAll vs
    rw [Option.some_bind, hp]
    rfl

/-- Pushing a list that fits into the remaining capacity appends it to the
logical contents. -/
theorem CircBuf.pushAll_spec :
    ∀ (vs : List T) (b : CircBuf T SIZE), b.WF → b.len + vs.length ≤ SIZE →
      ∃ b2, b.pushAll vs = some b2 ∧ b2.start = b.start ∧
        b2.len = b.len + vs.length ∧ b2.toList = b.toList ++ vs.map some ∧ b2.WF := by
  intro vs
  induction vs with
  | nil =>
    intro b hWF hfit
    exact ⟨b, rfl, rfl, rfl, by simp, hWF⟩
  | cons v vs ih =>
    intro b hWF hfit
    have hlt : b.len < SIZE := by
      have := hfit
      simp only [List.length_cons] at this
      omega
    obtain ⟨b1, hp, hs1, hl1, -, htl1, hwf1⟩ := CircBuf.push_not_full v hlt
    obtain ⟨b2, hp2, hs2, hl2, htl2, hwf2⟩ := ih b1 (hwf1 hWF) (by
      simp only [List.length_cons] at hfit
      omega)
    refine ⟨b2, ?_, by rw [hs2, hs1], ?_, ?_, hwf2⟩
    · rw [CircBuf.pushAll_cons, hp]
      exact hp2
    · rw [hl2, hl1, List.length_cons]
      omega
    · rw [htl2, htl1, List.map_cons, List.append_assoc, List.singleton_append]

/-- Popping `k ≤ len` times returns the first `k` logical elements in order
and drops them from the buffer. -/
theorem CircBuf.popN_spec :
    ∀ (k : Nat) (b : CircBuf T SIZE), b.WF → k ≤ b.len →
      ∃ b2, b.popN k = some (b.toList.take k, b2) ∧
        b2.len = b.len - k ∧ b2.toList = b.toList.drop k ∧ b2.WF := by
  intro k
  induction k with
  | zero =>
    intro b hWF hk
    exact ⟨b, by simp [CircBuf.popN], by omega, by simp, hWF⟩
  | succ k ih =>
    intro b hWF hk
    have hpos : 0 < b.len := by omega
    obtain ⟨v, b1, hpop, hcellv, hcons, hs1, hl1, hd1, hwf1⟩ :=
      CircBuf.pop_nonempty hWF hpos
    obtain ⟨b2, hpn, hl2, htl2, hwf2⟩ := ih b1 hwf1 (by omega)
    refine ⟨b2, ?_, by omega, ?_, hwf2⟩
    · show (match b.pop with
        | none => none
        | some (r0, b3) => Option.map (fun r => (r0 :: r.1, r.2)) (b3.popN k))
        = some (b.toList.take (k + 1), b2)
      rw [hpop]
      show Option.map (fun r => (some v :: r.1, r.2)) (b1.popN k)
        = some (b.toList.take (k + 1), b2)
      rw [hpn, hcons, List.take_succ_cons]
      rfl
    · rw [htl2, hcons, List.drop_succ_cons]


/-- Rust `push` preserves the invariant. -/
theorem CircBuf.wf_push {b b2 : CircBuf T SIZE} {e : T} (hWF : b.WF)
    (hp : b.push e = some b2) : b2.WF := by
  by_cases hS : SIZE = 0
  · rw [CircBuf.push, if_pos hS] at hp
    exact absurd hp (by simp)
  · by_cases hfull : b.len = SIZE
    · obtain ⟨b3, hp3, -, -, -, hwf3⟩ := CircBuf.push_full e (by omega) hfull
      rw [hp3] at hp
      exact (Option.some.inj hp) ▸ hwf3 hWF
    · have hlt : b.len < SIZE := by
        have := hWF.1
        omega
      obtain ⟨b3, hp3, -, -, -, -, hwf3⟩ := CircBuf.push_not_full e hlt
      rw [hp3] at hp
      exact (Option.some.inj hp) ▸ hwf3 hWF

/-- Rust `pop` preserves the invariant. -/
theorem CircBuf.wf_pop {b b2 : CircBuf T SIZE} {r : Option T} (hWF : b.WF)
    (hp : b.pop = some (r, b2)) : b2.WF := by
  by_cases hlen : b.len = 0
  · have hemp : b.is_empty = true := by simp [CircBuf.is_empty, hlen]
    rw [CircBuf.pop, if_pos (by simp [hemp])] at hp
    have hb : b = b2 := congrArg Prod.snd (Option.some.inj hp)
    exact hb ▸ hWF
  · obtain ⟨v, b3, hp3, -, -, -, -, -, hwf3⟩ :=
      CircBuf.pop_nonempty hWF (by omega)
    rw [hp3] at hp
    have hb : b3 = b2 := congrArg Prod.snd (Option.some.inj hp)
    exact hb ▸ hwf3

/-- Writes through `index_mut` preserve the invariant. -/
theorem CircBuf.wf_set {b b2 : CircBuf T SIZE} {i : Nat} {v : T} (hWF : b.WF)
    (hp : b.index_mut_set i v = some b2) : b2.WF := by
  by_cases hi : i < b.len
  · obtain ⟨b3, hp3, -, -, -, hwf3⟩ := CircBuf.index_mut_set_in_range hWF hi v
    rw [hp3] at hp
    exact (Option.some.inj hp) ▸ hwf3
  · rw [CircBuf.index_mut_set_out_of_range (by omega) v] at hp
    exact absurd hp (by simp)


/-- Under the invariant, reading every logical index in order reproduces the
logical contents. -/
theorem CircBuf.range_index_eq_toList {b : CircBuf T SIZE} (hWF : b.WF) :
    (List.range b.len).map (fun k => b.index k) = b.toList := by
  rw [CircBuf.toList]
  refine List.map_congr_left (fun k hk => ?_)
  rw [List.mem_range] at hk
  exact (CircBuf.index_in_range hWF hk).1

/-- A buffer whose logical contents are `vs.map some` iterates to exactly
`vs` (with one spare unit of fuel to observe exhaustion). -/
theorem Iter.collect_toList {b : CircBuf T SIZE} {vs : List T} (hWF : b.WF)
    (h : b.toList = vs.map some) :
    Iter.collect (b.len + 1) b.iter = some vs := by
  obtain ⟨l, hl, hmap⟩ := Iter.collect_spec hWF (b.len + 1) 0 (by omega)
  have hshift : (List.range b.len).map (fun k => b.index (0 + k)) = b.toList := by
    rw [← CircBuf.range_index_eq_toList hWF]
    exact List.map_congr_left (fun k hk => by rw [Nat.zero_add])
  have hmap2 : l.map some = vs.map some := by
    rw [hmap, Nat.sub_zero, hshift, h]
  have hlv : l = vs := List.map_injective_iff.mpr (Option.some_injective T) hmap2
  rw [← hlv]
  exact hl


/-- C1: for every buffer of positive capacity and every value, `push` writes
the value into cell `(start + len) % SIZE` and changes no other cell; if the
buffer was full (`len = SIZE`) then `start` advances by one mod `SIZE` and
`len` stays `SIZE` (the oldest element is evicted by overwrite), otherwise
`len` increments by one and `start` is unchanged. -/
theorem claim_C1_push_spec {T : Type} {SIZE : Nat} (hS : 0 < SIZE)
    (b : CircBuf T SIZE) (e : T) :
    ∃ b2, b.push e = some b2 ∧
      b2.data ((b.start + b.len) % SIZE) = some e ∧
      (∀ j, j ≠ (b.start + b.len) % SIZE → b2.data j = b.data j) ∧
      (b.len = SIZE → b2.start = (b.start + 1) % SIZE ∧ b2.len = SIZE) ∧
      (b.len ≠ SIZE → b2.start = b.start ∧ b2.len = b.len + 1) := by
  have hS0 : SIZE ≠ 0 := by omega
  by_cases hfull : b.len = SIZE
  · have hf : b.is_full = true := by simp [CircBuf.is_full, hfull]
    refine ⟨⟨(b.start + 1) % SIZE, b.len,
      fun j => if j = (b.start + b.len) % SIZE then some e else b.data j⟩,
      by simp [CircBuf.push, hS0, hf], by simp, fun j hj => by simp [hj],
      fun _ => ⟨rfl, hfull⟩, fun h => absurd hfull h⟩
  · have hf : b.is_full = false := by
      simp only [CircBuf.is_full, beq_eq_false_iff_ne, ne_eq]
      exact hfull
    refine ⟨⟨b.start, b.len + 1,
      fun j => if j = (b.start + b.len) % SIZE then some e else b.data j⟩,
      by simp [CircBuf.push, hS0, hf], by simp, fun j hj => by simp [hj],
      fun h => absurd h hfull, fun _ => ⟨rfl, rfl⟩⟩

/-- Witness for C1 at capacity 1. -/
theorem claim_C1_witness : ∃ b2, (CircBuf.new Nat 1).push 5 = some b2 := by
  obtain ⟨b2, hp, -, -, -, -⟩ := claim_C1_push_spec (by decide) (CircBuf.new Nat 1) 5
  exact ⟨b2, hp⟩

/-- C2: pushing `N` values `v0..v(N-1)` into a fresh buffer of capacity
`N > 0` gives `len = N`, `is_full`, and iteration yields exactly the values
in order; pushing one more value evicts `v0`: iteration then yields
`v1..v(N-1), w` and `len` stays `N`. -/
theorem claim_C2_fill_and_evict {T : Type} {SIZE : Nat} (hS : 0 < SIZE)
    (vs : List T) (hlen : vs.length = SIZE) (_hnd : vs.Nodup) (w : T) :
    ∃ b, (CircBuf.new T SIZE).pushAll vs = some b ∧ b.len = SIZE ∧
      b.is_full = true ∧ Iter.collect (b.len + 1) b.iter = some vs ∧
      ∃ b2, b.push w = some b2 ∧ b2.len = SIZE ∧
        Iter.collect (b2.len + 1) b2.iter = some (vs.tail ++ [w]) := by
  obtain ⟨b, hpa, hsb, hlb0, htl, hwf⟩ :=
    CircBuf.pushAll_spec vs (CircBuf.new T SIZE) CircBuf.wf_new
      (by simp [CircBuf.new, hlen])
  have hlb : b.len = SIZE := by
    rw [hlb0, hlen]
    simp [CircBuf.new]
  have htlb : b.toList = vs.map some := by
    rw [htl, CircBuf.toList_new, List.nil_append]
  refine ⟨b, hpa, hlb, by simp [CircBuf.is_full, hlb], Iter.collect_toList hwf htlb, ?_⟩
  obtain ⟨b2, hp2, hs2, hl2, htl2, hwf2⟩ := CircBuf.push_full w hS hlb
  refine ⟨b2, hp2, hl2, ?_⟩
  have htlb2 : b2.toList = (vs.tail ++ [w]).map some := by
    rw [htl2, htlb, List.map_append, List.map_tail]
    rfl
  exact Iter.collect_toList (hwf2 hwf) htlb2

/-- Witness for C2 at capacity 2 with values 0, 1 and extra value 2. -/
theorem claim_C2_witness :
    ∃ b, (CircBuf.new Nat 2).pushAll [0, 1] = some b ∧
      Iter.collect (b.len + 1) b.iter = some [0, 1] := by
  obtain ⟨b, hpa, -, -, hcoll, -⟩ :=
    @claim_C2_fill_and_evict Nat 2 (by decide) [0, 1] (by decide) (by decide) 2
  exact ⟨b, hpa, hcoll⟩

/-- C3: `pop` on an empty buffer returns no value and leaves the state
(`start`, `len`, storage) unchanged, with `is_empty` true before and after;
`pop` on a non-empty buffer returns the element at cell `start` (the
oldest), advances `start` by one mod `SIZE`, decrements `len`, and leaves the
storage untouched. -/
theorem claim_C3_pop_spec {T : Type} {SIZE : Nat} (b : CircBuf T SIZE)
    (hWF : b.WF) :
    (b.len = 0 → b.is_empty = true ∧ b.pop = some (none, b)) ∧
    (0 < b.len → ∃ v b2, b.pop = some (some v, b2) ∧ b.data b.start = some v ∧
      b2.start = (b.start + 1) % SIZE ∧ b2.len = b.len - 1 ∧ b2.data = b.data) := by
  constructor
  · intro h0
    have hemp : b.is_empty = true := by simp [CircBuf.is_empty, h0]
    exact ⟨hemp, by simp [CircBuf.pop, hemp]⟩
  · intro hpos
    obtain ⟨v, b2, hp, hcell, -, hs, hl, hd, -⟩ := CircBuf.pop_nonempty hWF hpos
    exact ⟨v, b2, hp, hcell, hs, hl, hd⟩

/-- Witness for C3: a one-element buffer of capacity 2 pops its element. -/
theorem claim_C3_witness :
    ∃ v b2, (⟨0, 1, fun j => if j = 0 then some 42 else none⟩ :
      CircBuf Nat 2).pop = some (some v, b2) := by
  obtain ⟨-, h⟩ := claim_C3_pop_spec
    (⟨0, 1, fun j => if j = 0 then some 42 else none⟩ : CircBuf Nat 2) (by decide)
  obtain ⟨v, b2, hp, -, -, -, -⟩ := h (by decide)
  exact ⟨v, b2, hp⟩

/-- C4: indexed access (read or write) at `i ≥ len` faults and never returns
a value; at `i < len` the read returns exactly physical cell
`(start + i) % SIZE` (never clamped or wrapped to another live cell) and
yields a value, and the mutable access succeeds and targets exactly that same
physical cell, leaving every other cell unchanged. -/
theorem claim_C4_index_spec {T : Type} {SIZE : Nat} (b : CircBuf T SIZE)
    (hWF : b.WF) (i : Nat) (v : T) :
    (b.len ≤ i → b.index i = none ∧ b.index_mut_set i v = none) ∧
    (i < b.len → b.index i = b.data ((b.start + i) % SIZE) ∧
      (b.index i).isSome = true ∧
      ∃ b2, b.index_mut_set i v = some b2 ∧
        b2.data ((b.start + i) % SIZE) = some v ∧
        (∀ j, j ≠ (b.start + i) % SIZE → b2.data j = b.data j)) := by
  constructor
  · intro hi
    exact ⟨CircBuf.index_out_of_range hi, CircBuf.index_mut_set_out_of_range hi v⟩
  · intro hi
    obtain ⟨h1, h2⟩ := CircBuf.index_in_range hWF hi
    obtain ⟨b2, hset, -, -, hd2, -⟩ := CircBuf.index_mut_set_in_range hWF hi v
    refine ⟨h1, h2, b2, hset, ?_, ?_⟩
    · rw [hd2]
      simp
    · intro j hj
      rw [hd2]
      simp [hj]

/-- Witness for C4: out-of-range index 5 faults, in-range index 0 yields a
value, on a one-element buffer of capacity 2. -/
theorem claim_C4_witness :
    ((⟨0, 1, fun j => if j = 0 then some 9 else none⟩ : CircBuf Nat 2).index 5
      = none) ∧
    (((⟨0, 1, fun j => if j = 0 then some 9 else none⟩ :
      CircBuf Nat 2).index 0).isSome = true) := by
  refine ⟨((claim_C4_index_spec
    (⟨0, 1, fun j => if j = 0 then some 9 else none⟩ : CircBuf Nat 2)
    (by decide) 5 7).1 (by decide)).1, ?_⟩
  exact ((claim_C4_index_spec
    (⟨0, 1, fun j => if j = 0 then some 9 else none⟩ : CircBuf Nat 2)
    (by decide) 0 7).2 (by decide)).2.1

/-- C5 counterexample: at capacity 0, `push` does not complete without
fault: `(self.start + self.len) % SIZE` is a remainder by zero, which
panics, so `push` faults (modelled as `none`). -/
theorem claim_C5_counterexample : (CircBuf.new Nat 0).push 42 = none := rfl

/-- C5 amended: for capacity 0, `pop`, `len`, `is_empty`, `is_full`, indexed
access and iteration behave as the claim says (the buffer reports empty and
full simultaneously, `pop` is a stateless no-op, indexed access faults as
always out of range, iteration is empty) — but `push` faults (remainder by
zero) instead of completing. -/
theorem claim_C5_amended {T : Type} (b : CircBuf T 0) (hWF : b.WF) (e : T)
    (i fuel : Nat) :
    b.len = 0 ∧ b.is_empty = true ∧ b.is_full = true ∧
    b.pop = some (none, b) ∧ b.index i = none ∧ b.index_mut_set i e = none ∧
    Iter.collect fuel b.iter = some [] ∧ b.push e = none := by
  have h0 : b.len = 0 := by
    have h1 := hWF.1
    omega
  have hemp : b.is_empty = true := by simp [CircBuf.is_empty, h0]
  refine ⟨h0, hemp, by simp [CircBuf.is_full, h0], by simp [CircBuf.pop, hemp],
    CircBuf.index_out_of_range (by omega),
    CircBuf.index_mut_set_out_of_range (by omega) e, ?_, by simp [CircBuf.push]⟩
  cases fuel with
  | zero => rfl
  | succ fuel =>
    have hnext : Iter.next b.iter = some (none, b.iter) := by
      simp [Iter.next, CircBuf.iter, h0]
    rw [Iter.collect, hnext]

/-- Witness for C5 amended, at the fresh capacity-0 buffer. -/
theorem claim_C5_witness :
    (CircBuf.new Nat 0).pop = some (none, CircBuf.new Nat 0) ∧
    (CircBuf.new Nat 0).push 7 = none := by
  obtain ⟨-, -, -, h1, -, -, -, h2⟩ :=
    claim_C5_amended (CircBuf.new Nat 0) (by decide) 7 0 0
  exact ⟨h1, h2⟩

/-- C6: `iter` creates a fresh cursor on the buffer starting at the oldest
element (index 0), and driving it yields exactly `len` values where the
`i`-th value equals indexed access at `i`. -/
theorem claim_C6_iteration {T : Type} {SIZE : Nat} (b : CircBuf T SIZE)
    (hWF : b.WF) :
    b.iter.buf = b ∧ b.iter.idx = 0 ∧
    ∃ l, Iter.collect (b.len + 1) b.iter = some l ∧ l.length = b.len ∧
      ∀ i, i < b.len → l[i]? = b.index i := by
  refine ⟨rfl, rfl, ?_⟩
  obtain ⟨l, hl, hmap⟩ := Iter.collect_spec hWF (b.len + 1) 0 (by omega)
  have hshift : (List.range b.len).map (fun k => b.index (0 + k)) = b.toList := by
    rw [← CircBuf.range_index_eq_toList hWF]
    exact List.map_congr_left (fun k hk => by rw [Nat.zero_add])
  have hmap2 : l.map some = b.toList := by
    rw [hmap, Nat.sub_zero, hshift]
  refine ⟨l, hl, ?_, ?_⟩
  · have hlen := congrArg List.length hmap2
    simp only [List.length_map, CircBuf.toList_length] at hlen
    exact hlen
  · intro i hi
    have hg := congrArg (fun t => t[i]?) hmap2
    simp only [List.getElem?_map] at hg
    have htl : b.toList[i]? = some (b.data ((b.start + i) % SIZE)) := by
      rw [CircBuf.toList, List.getElem?_map, List.getElem?_range hi]
      rfl
    rw [htl] at hg
    have hidx := (CircBuf.index_in_range hWF hi).1
    cases hli : l[i]? with
    | none =>
      rw [hli] at hg
      exact absurd hg (by simp)
    | some x =>
      rw [hli] at hg
      have hx : some x = b.data ((b.start + i) % SIZE) := by
        simpa using hg
      rw [hidx, ← hx]

/-- Witness for C6 on a one-element buffer of capacity 2. -/
theorem claim_C6_witness :
    ∃ l, Iter.collect
      ((⟨0, 1, fun j => if j = 0 then some 3 else none⟩ : CircBuf Nat 2).len + 1)
      (⟨0, 1, fun j => if j = 0 then some 3 else none⟩ : CircBuf Nat 2).iter
      = some l := by
  obtain ⟨-, -, l, hl, -, -⟩ := claim_C6_iteration
    (⟨0, 1, fun j => if j = 0 then some 3 else none⟩ : CircBuf Nat 2) (by decide)
  exact ⟨l, hl⟩

/-- C7: pushing a sequence that fits the capacity into a fresh buffer and
then popping `len` times yields the sequence in order and empties the
buffer. -/
theorem claim_C7_round_trip {T : Type} {SIZE : Nat} (vs : List T)
    (hfit : vs.length ≤ SIZE) :
    ∃ b b2, (CircBuf.new T SIZE).pushAll vs = some b ∧ b.len = vs.length ∧
      b.popN b.len = some (vs.map some, b2) ∧ b2.len = 0 ∧
      b2.is_empty = true := by
  obtain ⟨b, hpa, -, hlb0, htl, hwf⟩ :=
    CircBuf.pushAll_spec vs (CircBuf.new T SIZE) CircBuf.wf_new
      (by simpa [CircBuf.new] using hfit)
  have hlb : b.len = vs.length := by
    rw [hlb0]
    simp [CircBuf.new]
  have htlb : b.toList = vs.map some := by
    rw [htl, CircBuf.toList_new, List.nil_append]
  obtain ⟨b2, hpn, hl2, -, -⟩ := CircBuf.popN_spec b.len b hwf (Nat.le_refl _)
  have htake : b.toList.take b.len = vs.map some := by
    rw [← CircBuf.toList_length b, List.take_length, htlb]
  rw [htake] at hpn
  refine ⟨b, b2, hpa, hlb, hpn, by omega, ?_⟩
  simp [CircBuf.is_empty]
  omega

/-- Witness for C7 with two values in a capacity-3 buffer. -/
theorem claim_C7_witness :
    ∃ b b2, (CircBuf.new Nat 3).pushAll [1, 2] = some b ∧
      b.popN b.len = some ([some 1, some 2], b2) := by
  obtain ⟨b, b2, hpa, -, hpn, -, -⟩ := @claim_C7_round_trip Nat 3 [1, 2] (by decide)
  exact ⟨b, b2, hpa, hpn⟩

/-- C8: every buffer reachable from the empty buffer by `push`, `pop` and
mutable indexed writes satisfies the state invariant: `len ≤ SIZE`, `start`
in `[0, SIZE)` when `SIZE > 0`, and the cells `(start + i) % SIZE` for
`i < len` hold the live elements. -/
theorem claim_C8_invariant {T : Type} {SIZE : Nat} (b : CircBuf T SIZE)
    (h : Reachable b) : b.WF := by
  induction h with
  | new => exact CircBuf.wf_new
  | push b0 e b2 h0 hp ih => exact CircBuf.wf_push ih hp
  | pop b0 r b2 h0 hp ih => exact CircBuf.wf_pop ih hp
  | set b0 i v b2 h0 hp ih => exact CircBuf.wf_set ih hp

/-- Witness for C8 at the fresh buffer of capacity 3. -/
theorem claim_C8_witness : (CircBuf.new Nat 3).WF :=
  claim_C8_invariant (CircBuf.new Nat 3) Reachable.new

/-- C9: writing through mutable indexed access at a valid `i` changes only
logical position `i`; `len`, `start` and all other logical positions are
unchanged. -/
theorem claim_C9_frame {T : Type} {SIZE : Nat} (b : CircBuf T SIZE)
    (hWF : b.WF) (i : Nat) (hi : i < b.len) (v : T) :
    ∃ b2, b.index_mut_set i v = some b2 ∧ b2.len = b.len ∧
      b2.start = b.start ∧ b2.index i = some v ∧
      ∀ j, j < b.len → j ≠ i → b2.index j = b.index j := by
  have hlen1 : b.len ≤ SIZE := hWF.1
  have hS : 0 < SIZE := by omega
  obtain ⟨b2, hset, hs2, hl2, hd2, hwf2⟩ := CircBuf.index_mut_set_in_range hWF hi v
  refine ⟨b2, hset, hl2, hs2, ?_, ?_⟩
  · have hread := (CircBuf.index_in_range hwf2 (show i < b2.len by omega)).1
    rw [hread, hd2, hs2]
    simp
  · intro j hj hne
    have h1 := (CircBuf.index_in_range hwf2 (show j < b2.len by omega)).1
    have h2 := (CircBuf.index_in_range hWF hj).1
    rw [h1, h2, hd2, hs2]
    have hcell : (b.start + j) % SIZE ≠ (b.start + i) % SIZE := fun hcon =>
      hne (mod_add_inj (by omega) (by omega) hcon)
    simp [hcell]

/-- Witness for C9: overwrite position 0 of a full two-element buffer. -/
theorem claim_C9_witness :
    ∃ b2, (⟨0, 2, fun j => if j = 0 then some 1 else if j = 1 then some 2
      else none⟩ : CircBuf Nat 2).index_mut_set 0 9 = some b2 ∧
      b2.index 0 = some 9 := by
  obtain ⟨b2, hset, -, -, hidx, -⟩ := claim_C9_frame
    (⟨0, 2, fun j => if j = 0 then some 1 else if j = 1 then some 2 else none⟩ :
      CircBuf Nat 2) (by decide) 0 (by decide) 9
  exact ⟨b2, hset, hidx⟩

/-- C10: the iterator's `size_hint` returns exactly
`(buf.len(), Some(buf.len()))`, regardless of the cursor position; the number
of values actually remaining is `len - idx`, so the hint is exact precisely
when the cursor is at the start. -/
theorem claim_C10_size_hint {T : Type} {SIZE : Nat} (it : Iter T SIZE)
    (hWF : it.buf.WF) :
    it.size_hint = (it.buf.len, some it.buf.len) ∧
    ∃ l, Iter.collect (it.buf.len - it.idx + 1) it = some l ∧
      l.length = it.buf.len - it.idx := by
  refine ⟨rfl, ?_⟩
  obtain ⟨l, hl, hmap⟩ :=
    Iter.collect_spec hWF (it.buf.len - it.idx + 1) it.idx (by omega)
  refine ⟨l, hl, ?_⟩
  have hlen := congrArg List.length hmap
  simpa using hlen

/-- Witness for C10 on the fresh cursor of an empty capacity-2 buffer. -/
theorem claim_C10_witness :
    (CircBuf.iter (CircBuf.new Nat 2)).size_hint = (0, some 0) :=
  (claim_C10_size_hint (CircBuf.iter (CircBuf.new Nat 2)) (by decide)).1

end Circbuf
